import Mathlib

/-!
Verification development for the bwv-zeug mermaid pipeline compiler.

The repository parses mermaid diagram text into a pipeline of typed nodes
(Input, Task, Output, Runnable, Export) and directed edges, derives per-task
dependencies, orders tasks with Kahn style topological sorting, and generates
task definitions.  This file gives a shallow embedding of the relevant code
(`tasks_mermaid.py`, `tasks_mermaid_utils.py`, `tasks_mermaid_generator.py`)
over `List Char` based string operations (so that everything reduces in the
kernel), and proves or refutes the specified properties.

Modelling conventions:
* Python `dict` is an association list `List (String × α)`; `dinsert`
  overwrites in place (keeping the original position) exactly as a Python
  dict assignment does.
* Python `str.replace`, `str.strip`, `str.split` are re-implemented over
  `List Char` with fuel recursion (fuel is always at least the string length,
  so it never truncates).
* Python `list(set(xs))` has unspecified element order (hash randomization);
  where only membership and uniqueness matter we use `List.dedup` as a
  canonical representative; where the order matters (code generation) the
  result is quantified over all lists satisfying `isSetListOf`.
* `re.finditer` scanning is modelled by a left-to-right scanner that, on a
  failed match attempt, advances one character, and after a successful match
  resumes right after it, matching the regex semantics of the fixed patterns
  used by the source.
-/

namespace BwvZeug

/-! ### Python string primitives over `List Char` -/

/-- Python `s.replace(old, new)` on char lists: leftmost, non-overlapping.
The fuel is the length of the scanned list, which suffices since every step
consumes at least one character.  All call sites in the source use fixed
non-empty pattern literals. -/
def pyReplaceL (pat rep : List Char) : Nat → List Char → List Char
  | _, [] => []
  | 0, s => s
  | fuel+1, c :: s =>
    if pat ≠ [] ∧ pat.isPrefixOf (c :: s) then
      rep ++ pyReplaceL pat rep fuel ((c :: s).drop pat.length)
    else
      c :: pyReplaceL pat rep fuel s

/-- Python `s.replace(old, new)` for strings. -/
def pyReplace (s pat rep : String) : String :=
  String.mk (pyReplaceL pat.toList rep.toList s.toList.length s.toList)

/-- Python `s.strip()`: drop whitespace from both ends. -/
def pyStripL (l : List Char) : List Char :=
  ((l.dropWhile Char.isWhitespace).reverse.dropWhile Char.isWhitespace).reverse

/-- Python `s.strip()` for strings. -/
def pyStrip (s : String) : String := String.mk (pyStripL s.toList)

/-- Python `s.split(sep)` for a non-empty separator, on char lists. -/
def pySplitL (sep : List Char) : Nat → List Char → List (List Char)
  | _, [] => [[]]
  | 0, s => [s]
  | fuel+1, c :: s =>
    if sep ≠ [] ∧ sep.isPrefixOf (c :: s) then
      [] :: pySplitL sep fuel ((c :: s).drop sep.length)
    else
      match pySplitL sep fuel s with
      | [] => [[c]]
      | p :: ps => (c :: p) :: ps

/-- Python `s.split(sep)` for strings. -/
def pySplit (s sep : String) : List String :=
  (pySplitL sep.toList s.toList.length s.toList).map String.mk

/-- Python `s.split()` with no argument: split on whitespace runs,
discarding empty pieces. -/
def pySplitWsL : Nat → List Char → List (List Char)
  | 0, _ => []
  | fuel+1, s =>
    let s1 := s.dropWhile Char.isWhitespace
    match s1 with
    | [] => []
    | _ =>
      let w := s1.takeWhile (fun c => !c.isWhitespace)
      w :: pySplitWsL fuel (s1.drop w.length)

/-- Python `s.split()` for strings. -/
def pySplitWs (s : String) : List String :=
  (pySplitWsL (s.toList.length + 1) s.toList).map String.mk

/-- Python `s.startswith(pre)`. -/
def pyStartsWith (s pre : String) : Bool := pre.toList.isPrefixOf s.toList

/-- Python `s.endswith(suf)`. -/
def pyEndsWith (s suf : String) : Bool := suf.toList.isSuffixOf s.toList

/-- Python `sep.join(xs)`. -/
def pyJoin (sep : String) : List String → String
  | [] => ""
  | [a] => a
  | a :: rest => a ++ sep ++ pyJoin sep rest

/-- Python `pat in s` substring containment, as a proposition. -/
def strContains (s pat : String) : Prop := pat.toList <:+: s.toList

instance (s pat : String) : Decidable (strContains s pat) :=
  List.decidableInfix pat.toList s.toList

/-! ### Node model (`tasks_mermaid.py`, dataclasses) -/

/-- Input node (I1, I2, ...). -/
structure Input where
  id : String
  filename : String
  description : String
deriving DecidableEq

/-- Task node (T1, T2, ...). -/
structure Task where
  id : String
  name : String
  description : String
deriving DecidableEq

/-- Output node (O1, O2, ...). -/
structure Output where
  id : String
  filename : String
  description : String
deriving DecidableEq

/-- Runnable node (R1, R2, ...), a Docker command or Python script. -/
structure Runnable where
  id : String
  command : String
  script_file : Option String
  description : String
deriving DecidableEq

/-- Export node (E1, E2, ...). -/
structure Export where
  id : String
  filename : String
  description : String
deriving DecidableEq

/-- Complete pipeline structure, with Python dicts as association lists in
insertion order. -/
structure Pipeline where
  inputs : List (String × Input)
  tasks : List (String × Task)
  outputs : List (String × Output)
  runnables : List (String × Runnable)
  exports : List (String × Export)
  edges : List (String × String)
deriving DecidableEq

/-- Python dict assignment `d[k] = v`: overwrite in place (the key keeps its
original position), append otherwise. -/
def dinsert {α : Type} (k : String) (v : α) : List (String × α) → List (String × α)
  | [] => [(k, v)]
  | (k', v') :: d => if k' = k then (k, v) :: d else (k', v') :: dinsert k v d

/-- Python dict read `d.get(k)` / `d[k]` on the association list. -/
def dlookup {α : Type} (k : String) : List (String × α) → Option α
  | [] => none
  | (k', v) :: d => if k' = k then some v else dlookup k d

/-! ### Regex scanners (`re.finditer` over the fixed patterns) -/

/-- Scanner for the node pattern `(X\d+)\[([^\]]+)\]` (DOTALL), where `X` is
the type tag: at each position try to match tag, one or more digits, `[`,
one or more non-`]` characters, `]`; on failure advance one character, on
success resume after the closing bracket.  Returns `(id, bracket content)`
pairs in text order. -/
def scanNodesL (tag : Char) : Nat → List Char → List (String × String)
  | 0, _ => []
  | _, [] => []
  | fuel+1, c :: rest =>
    if c = tag then
      let ds := rest.takeWhile Char.isDigit
      if ds = [] then scanNodesL tag fuel rest
      else
        match rest.drop ds.length with
        | '[' :: r2 =>
          let body := r2.takeWhile (fun ch => ch != ']')
          if body = [] then scanNodesL tag fuel rest
          else
            match r2.drop body.length with
            | ']' :: r4 => (String.mk (c :: ds), String.mk body) :: scanNodesL tag fuel r4
            | _ => scanNodesL tag fuel rest
        | _ => scanNodesL tag fuel rest
    else scanNodesL tag fuel rest

/-- All matches of the node pattern for the given tag in the content. -/
def nodeMatches (tag : Char) (content : String) : List (String × String) :=
  scanNodesL tag content.toList.length content.toList

/-- Word character of the `\w` class (ASCII portion). -/
def isWordChar (c : Char) : Bool := c.isAlphanum || c == '_'

/-- Scanner for the edge pattern `(\w+)\s*-->\s*(\w+)`: word run, optional
whitespace, the literal arrow, optional whitespace, word run. -/
def scanEdgesL : Nat → List Char → List (String × String)
  | 0, _ => []
  | _, [] => []
  | fuel+1, c :: rest =>
    let w1 := (c :: rest).takeWhile isWordChar
    if w1 = [] then scanEdgesL fuel rest
    else
      match ((c :: rest).drop w1.length).dropWhile Char.isWhitespace with
      | '-' :: '-' :: '>' :: r2 =>
        let r3 := r2.dropWhile Char.isWhitespace
        let w2 := r3.takeWhile isWordChar
        if w2 = [] then scanEdgesL fuel rest
        else (String.mk w1, String.mk w2) :: scanEdgesL fuel (r3.drop w2.length)
      | _ => scanEdgesL fuel rest

/-! ### MermaidParser (`tasks_mermaid.py`) -/

/-- Shared content handling of every node parser: split the bracket content
on the literal `<br/>`, strip the first line (the primary payload) and the
optional second line (the description). -/
def contentParts (full : String) : String × String :=
  let lines := pySplit full "<br/>"
  (pyStrip (lines.headD ""),
   match lines with
   | _ :: d :: _ => pyStrip d
   | _ => "")

/-- `MermaidParser._parse_inputs` body for one match: first line is the
filename, with the `BWV000` placeholder replaced by the project name. -/
def buildInput (project : String) (m : String × String) : Input :=
  let (filename, description) := contentParts m.2
  { id := m.1, filename := pyReplace filename "BWV000" project, description := description }

/-- `MermaidParser._parse_inputs`. -/
def parseInputs (project content : String) : List (String × Input) :=
  (nodeMatches 'I' content).foldl (fun d m => dinsert m.1 (buildInput project m) d) []

/-- `MermaidParser._parse_tasks` body for one match: first line is the task
name; task names are not placeholder substituted. -/
def buildTask (m : String × String) : Task :=
  let (name, description) := contentParts m.2
  { id := m.1, name := name, description := description }

/-- `MermaidParser._parse_tasks`. -/
def parseTasks (content : String) : List (String × Task) :=
  (nodeMatches 'T' content).foldl (fun d m => dinsert m.1 (buildTask m) d) []

/-- `MermaidParser._parse_outputs` body for one match. -/
def buildOutput (project : String) (m : String × String) : Output :=
  let (filename, description) := contentParts m.2
  { id := m.1, filename := pyReplace filename "BWV000" project, description := description }

/-- `MermaidParser._parse_outputs`. -/
def parseOutputs (project content : String) : List (String × Output) :=
  (nodeMatches 'O' content).foldl (fun d m => dinsert m.1 (buildOutput project m) d) []

/-- `MermaidParser._parse_exports` body for one match. -/
def buildExport (project : String) (m : String × String) : Export :=
  let (filename, description) := contentParts m.2
  { id := m.1, filename := pyReplace filename "BWV000" project, description := description }

/-- `MermaidParser._parse_exports`. -/
def parseExports (project content : String) : List (String × Export) :=
  (nodeMatches 'E' content).foldl (fun d m => dinsert m.1 (buildExport project m) d) []

/-- `MermaidParser._parse_runnables` body for one match.  The
`bwv_script:` branch indexes `parts[0]`, which raises `IndexError` when the
argument text is empty; that is modelled as `none`.  The general branch
replaces `BWV000` with the project name and `PWD` with `.`, and records the
script file when the command is a `python3` invocation of a `.py` file. -/
def buildRunnable (project : String) (m : String × String) : Option (String × Runnable) :=
  let (command, description) := contentParts m.2
  if pyStartsWith command "bwv_script:" then
    match pySplitWs (String.mk (command.toList.drop 11)) with
    | [] => none
    | script :: args0 =>
      let args := args0.map (fun a => pyReplace a "BWV000" project)
      some (m.1,
        { id := m.1,
          command := "BWV_SCRIPT:" ++ script ++ ":" ++ pyJoin ":" args,
          script_file := some script,
          description := description })
  else
    let actual := pyReplace (pyReplace command "BWV000" project) "PWD" "."
    let sf : Option String :=
      if pyStartsWith actual "python3 " then
        match pySplitWs actual with
        | _ :: p1 :: _ => if pyEndsWith p1 ".py" then some p1 else none
        | _ => none
      else none
    some (m.1, { id := m.1, command := actual, script_file := sf, description := description })

/-- `MermaidParser._parse_runnables`; `none` models the `IndexError` escape
of the malformed `bwv_script:` case. -/
def parseRunnables (project content : String) : Option (List (String × Runnable)) :=
  (nodeMatches 'R' content).foldlM
    (fun d m => (buildRunnable project m).map (fun kv => dinsert kv.1 kv.2 d)) []

/-- `MermaidParser._parse_edges`. -/
def parseEdges (content : String) : List (String × String) :=
  scanEdgesL content.toList.length content.toList

/-- The empty pipeline `Pipeline({}, {}, {}, {}, {}, [])`. -/
def emptyPipeline : Pipeline := ⟨[], [], [], [], [], []⟩

/-- `MermaidParser.parse_file`: the file argument is `none` when the mermaid
file does not exist, in which case the parser warns and returns the empty
pipeline; otherwise all node tables and the edge list are parsed from the
file content.  The outer `Option` models an uncaught Python exception. -/
def parseFile (project : String) (file : Option String) : Option Pipeline :=
  match file with
  | none => some emptyPipeline
  | some content =>
    (parseRunnables project content).map (fun rs =>
      { inputs := parseInputs project content,
        tasks := parseTasks content,
        outputs := parseOutputs project content,
        runnables := rs,
        exports := parseExports project content,
        edges := parseEdges content })

/-! ### Scheduler (`topological_sort_tasks` in `tasks_mermaid.py`) -/

/-- The key set `all_tasks = set(pipeline.tasks.keys())` as a duplicate-free
list; since dict keys are unique, `dedup` is the identity on them, and any
Python set iteration order is some permutation of this list. -/
def taskKeys (pl : Pipeline) : List String := (pl.tasks.map Prod.fst).dedup

/-- `from_task in all_tasks`. -/
def isTaskKey (pl : Pipeline) (x : String) : Bool := (pl.tasks.map Prod.fst).contains x

/-- `r_from in pipeline.runnables`. -/
def isRunnableKey (pl : Pipeline) (x : String) : Bool := (pl.runnables.map Prod.fst).contains x

/-- The quadruple-nested loop that builds `dependencies[task_id]`: for each
edge into the task, each edge out of any task node, each runnable edge into
the first edge source, and each edge tying that runnable to the candidate
task, append the candidate.  The same candidate may be appended several
times.  The per-key value is independent of the set iteration order over
`all_tasks`, so it is expressed directly as a function of the task id. -/
def depsOf (pl : Pipeline) (tid : String) : List String :=
  pl.edges.flatMap (fun e =>
    if e.2 = tid then
      pl.edges.flatMap (fun e2 =>
        if isTaskKey pl e2.1 then
          pl.edges.flatMap (fun e3 =>
            if isRunnableKey pl e3.1 ∧ e3.2 = e.1 then
              pl.edges.filterMap (fun e4 =>
                if e4.2 = e3.1 ∧ e4.1 = e2.1 ∧ e2.1 ≠ tid then some e2.1 else none)
            else [])
        else [])
    else [])

/-- Stable insertion into a list sorted by code point order, used to model
`queue.sort()`. -/
def insertStr (a : String) : List String → List String
  | [] => [a]
  | b :: l => if a.toList ≤ b.toList then a :: b :: l else b :: insertStr a l

/-- `queue.sort()`: insertion sort by the code point order on strings, the
comparison Python uses on `str`. -/
def sortQueue : List String → List String
  | [] => []
  | a :: l => insertStr a (sortQueue l)

/-- One drain step of the Kahn loop after popping `current`: iterate over
`all_tasks` in the given enumeration order; when `current` occurs in the
dependency list of a task, decrement its in-degree once (regardless of how
many times it occurs), and enqueue the task when the in-degree hits zero. -/
def kahnStep (deps : String → List String) (order : List String) (current : String)
    (st : (String → Int) × List String) : (String → Int) × List String :=
  order.foldl
    (fun st t =>
      if current ∈ deps t then
        let d := st.1 t - 1
        ((fun x => if x = t then d else st.1 x), if d = 0 then st.2 ++ [t] else st.2)
      else st)
    st

/-- The `while queue:` loop: sort the queue, pop the head, run the decrement
step, and append the popped task to the result.  The fuel only bounds the
iteration count; each task enters the queue at most once, so any fuel of at
least `order.length + 1` is never exhausted with a non-empty queue. -/
def kahnLoop (deps : String → List String) (order : List String) :
    Nat → List String → (String → Int) → List String → List String
  | 0, _, _, res => res
  | fuel+1, queue, deg, res =>
    match sortQueue queue with
    | [] => res
    | current :: rest =>
      let st := kahnStep deps order current (deg, rest)
      kahnLoop deps order fuel st.2 st.1 (res ++ [current])

/-- `topological_sort_tasks` down to task ids, parameterized by the
enumeration order of the `all_tasks` set (Python set iteration order is
arbitrary; determinism over it is proved, not assumed). -/
def topoIdsWith (pl : Pipeline) (order : List String) : List String :=
  let deps := fun t => depsOf pl t
  let deg0 : String → Int := fun t => ((deps t).length : Int)
  kahnLoop deps order (order.length + 1) (order.filter (fun t => deg0 t == 0)) deg0 []

/-- `topological_sort_tasks` task id order with the canonical enumeration. -/
def topoIds (pl : Pipeline) : List String := topoIdsWith pl (taskKeys pl)

/-- Final conversion of `topological_sort_tasks`: task ids to task names,
skipping ids absent from the task table. -/
def idsToNames (pl : Pipeline) (ids : List String) : List String :=
  ids.filterMap (fun tid => (dlookup tid pl.tasks).map (fun t => t.name))

/-- `topological_sort_tasks(pipeline)` with an explicit `all_tasks`
enumeration order. -/
def topological_sort_tasksWith (pl : Pipeline) (order : List String) : List String :=
  idsToNames pl (topoIdsWith pl order)

/-- `topological_sort_tasks(pipeline)`. -/
def topological_sort_tasks (pl : Pipeline) : List String :=
  idsToNames pl (topoIds pl)

/-! ### ANTLR listener node model and analyzer
(`tasks_mermaid_utils.py`, `tasks_mermaid_generator.py`) -/

/-- A node dict produced by `MermaidDisplayListener.enterNodeDeclaration`:
`type` is the first character of the id. -/
structure UNode where
  id : String
  ntype : Char
  content : String
  description : String
deriving DecidableEq

/-- `get_node_by_id`: first node with the given id. -/
def get_node_by_id (nodes : List UNode) (nid : String) : Option UNode :=
  nodes.find? (fun n => n.id == nid)

/-- Appending `dep_task['content']` when the node lookup succeeds. -/
def optContent : Option UNode → List String
  | some n => [n.content]
  | none => []

/-- Method 1 of `trace_task_dependencies`: direct `T -> T` edges. -/
def traceDirect (tid : String) (edges : List (String × String)) (nodes : List UNode) :
    List String :=
  edges.flatMap (fun e =>
    if e.2 = tid ∧ pyStartsWith e.1 "T" then optContent (get_node_by_id nodes e.1) else [])

/-- Method 2 of `trace_task_dependencies`: an `O` node feeding the task,
produced by an `R` node, itself fed by a `T` node. -/
def traceViaOutputs (tid : String) (edges : List (String × String)) (nodes : List UNode) :
    List String :=
  edges.flatMap (fun e =>
    if e.2 = tid ∧ pyStartsWith e.1 "O" then
      edges.flatMap (fun e2 =>
        if e2.2 = e.1 ∧ pyStartsWith e2.1 "R" then
          edges.flatMap (fun e3 =>
            if e3.2 = e2.1 ∧ pyStartsWith e3.1 "T" then
              optContent (get_node_by_id nodes e3.1)
            else [])
        else [])
    else [])

/-- `trace_task_dependencies`: both methods, deduplicated by
`list(set(...))`; `dedup` is the canonical representative of the unordered
Python set conversion (only membership and uniqueness are relied on). -/
def trace_task_dependencies (tid : String) (edges : List (String × String))
    (nodes : List UNode) : List String :=
  (traceDirect tid edges nodes ++ traceViaOutputs tid edges nodes).dedup

/-! ### Code generator (`tasks_mermaid_generator.py`) -/

/-- `get_final_tasks_from_listener` before the final `list(set(...))`: for
each export node in order, the first runnable edge into it, then the first
task edge into that runnable, then that task content if the node exists. -/
def finalTasksRaw (nodes : List UNode) (edges : List (String × String)) : List String :=
  ((nodes.filter (fun n => n.ntype == 'E')).map (fun n => n.id)).flatMap (fun eid =>
    match edges.find? (fun e => e.2 == eid && pyStartsWith e.1 "R") with
    | none => []
    | some er =>
      match edges.find? (fun e => e.2 == er.1 && pyStartsWith e.1 "T") with
      | none => []
      | some et => optContent (get_node_by_id nodes et.1))

/-- `l` is a possible value of Python `list(set(raw))`: the same elements,
each exactly once, in an order the language does not specify. -/
def isSetListOf (raw l : List String) : Prop :=
  l.Nodup ∧ (∀ x ∈ l, x ∈ raw) ∧ (∀ x ∈ raw, x ∈ l)

instance (raw l : List String) : Decidable (isSetListOf raw l) := by
  unfold isSetListOf; infer_instance

/-- `generate_all_task` given the outcome of `list(set(final_tasks))`:
renders the `all` task template with the final task list comment and one
call line per final task. -/
def generate_all_task (final_tasks : List String) : String :=
  if final_tasks.isEmpty then "" else
  let final_tasks_list := pyJoin ", " (final_tasks.map (fun t => "\x27" ++ t ++ "\x27"))
  let task_calls_code := pyJoin "\n" (final_tasks.map (fun n => "    " ++ n ++ "(c, force=force)"))
  "@task\ndef all(c, force=False):\n    \"\"\"Build all final outputs by running the complete pipeline.\"\"\"\n    print(f\"🎼 Building all outputs for project: \x7bPROJECT_NAME\x7d\")\n    \n    # Final tasks that produce exports: " ++ final_tasks_list ++ "\n    print(\"🔄 Running final pipeline tasks...\")\n    \n" ++ task_calls_code ++ "\n    \n    print(\"🎉 All pipeline outputs completed!\")"

/-! ### Placeholder resolution (`tasks_mermaid.py` substitution sites) -/

/-- The resolution applied to a runnable command in the general branch of
`_parse_runnables`: the project placeholder `BWV000` then the working
directory placeholder `PWD` (the source fixes the working directory to the
relative path `.`). -/
def resolveCommand (project x : String) : String :=
  pyReplace (pyReplace x "BWV000" project) "PWD" "."

/-- The resolution applied to Input, Output and Export filenames. -/
def resolveFilename (project x : String) : String :=
  pyReplace x "BWV000" project

/-! ### Auxiliary definitions for the stated properties -/

/-- Map a function over the values of an association list. -/
def mapVals {α β : Type} (f : α → β) (d : List (String × α)) : List (String × β) :=
  d.map (fun kv => (kv.1, f kv.2))

/-- The input parser with the placeholder substitution line omitted: the
stored filename is the raw stripped first line of the bracket content. -/
def buildInputRaw (m : String × String) : Input :=
  let (filename, description) := contentParts m.2
  { id := m.1, filename := filename, description := description }

/-- `_parse_inputs` without the substitution step, retaining raw
placeholder text. -/
def parseInputsRaw (content : String) : List (String × Input) :=
  (nodeMatches 'I' content).foldl (fun d m => dinsert m.1 (buildInputRaw m) d) []

/-- Form (a) of the inter-task dependency rule: a direct edge from a task
node into `t`. -/
def DirectDep (edges : List (String × String)) (t t' : String) : Prop :=
  (t', t) ∈ edges ∧ pyStartsWith t' "T" = true

/-- Form (b) of the inter-task dependency rule: a path
`t' -> r' -> o -> t` through a runnable of `t'` and an output that is a
source of `t`. -/
def OutputPathDep (edges : List (String × String)) (t t' : String) : Prop :=
  ∃ r o, (o, t) ∈ edges ∧ pyStartsWith o "O" = true ∧
    (r, o) ∈ edges ∧ pyStartsWith r "R" = true ∧
    (t', r) ∈ edges ∧ pyStartsWith t' "T" = true

/-- Code point order on strings, the order Python uses to compare `str`
values in `queue.sort()`. -/
def strLe (a b : String) : Prop := a.toList ≤ b.toList

instance : IsAntisymm String strLe where
  antisymm a b h1 h2 := by
    have h3 : a.toList = b.toList := le_antisymm h1 h2
    cases a; cases b
    simpa using congrArg String.mk h3

/-! ### Concrete fixtures -/

/-- The cycle scenario of the specification:
`T1 -> R1 -> O1 -> T2 -> R2 -> O2 -> T1`. -/
def cyclePipeline : Pipeline :=
  { inputs := [],
    tasks := [("T1", ⟨"T1", "t1", ""⟩), ("T2", ⟨"T2", "t2", ""⟩)],
    outputs := [("O1", ⟨"O1", "a.pdf", ""⟩), ("O2", ⟨"O2", "b.pdf", ""⟩)],
    runnables := [("R1", ⟨"R1", "cmd1", none, ""⟩), ("R2", ⟨"R2", "cmd2", none, ""⟩)],
    exports := [],
    edges := [("T1", "R1"), ("R1", "O1"), ("O1", "T2"),
              ("T2", "R2"), ("R2", "O2"), ("O2", "T1")] }

/-- An acyclic pipeline in which T2 depends on T1 both through the produced
file `O1` and through a direct edge; the dependency discovery then appends
T1 twice to the dependency list of T2. -/
def dupDepPipeline : Pipeline :=
  { inputs := [],
    tasks := [("T1", ⟨"T1", "t1", ""⟩), ("T2", ⟨"T2", "t2", ""⟩)],
    outputs := [("O1", ⟨"O1", "a.pdf", ""⟩)],
    runnables := [("R1", ⟨"R1", "cmd1", none, ""⟩)],
    exports := [],
    edges := [("T1", "R1"), ("R1", "O1"), ("O1", "T2"), ("T1", "T2")] }

/-- Listener content with two exports produced by two distinct tasks. -/
def twoExportNodes : List UNode :=
  [⟨"T1", 'T', "alpha", ""⟩, ⟨"T2", 'T', "beta", ""⟩,
   ⟨"R1", 'R', "cmd1", ""⟩, ⟨"R2", 'R', "cmd2", ""⟩,
   ⟨"E1", 'E', "a.pdf", ""⟩, ⟨"E2", 'E', "b.pdf", ""⟩]

/-- Edges for `twoExportNodes`. -/
def twoExportEdges : List (String × String) :=
  [("T1", "R1"), ("R1", "E1"), ("T2", "R2"), ("R2", "E2")]

/-! ### Theorems -/

/-- C8: when the diagram source file is absent (`none`), `parse_file` does
not raise and returns the empty pipeline: all five node tables and the edge
list are empty. -/
theorem missing_file_yields_empty_pipeline (p : String) :
    parseFile p none = some emptyPipeline := rfl

/-- C1: on the cycle diagram `T1 -> R1 -> O1 -> T2 -> R2 -> O2 -> T1` the
scheduler has two task nodes yet returns the empty order: the cyclic tasks
are silently dropped and no cycle error naming them is produced, contrary
to the claimed contract. -/
theorem cycle_tasks_silently_dropped :
    cyclePipeline.tasks.map Prod.fst = ["T1", "T2"] ∧
      topological_sort_tasks cyclePipeline = [] := by decide

/-- C2: the returned order is not total over all Task nodes.  In the acyclic
pipeline where T1 feeds T2 both through its produced file and through a
direct edge, the dependency list of T2 becomes `[T1, T1]`; the in-degree is
counted per entry but decremented only once per scheduled dependency, so T2
never becomes eligible and is dropped from the order. -/
theorem scheduler_drops_task_on_duplicate_dependency :
    depsOf dupDepPipeline "T2" = ["T1", "T1"] ∧
      topological_sort_tasks dupDepPipeline = ["t1"] ∧
      (dlookup "T2" dupDepPipeline.tasks).isSome = true := by decide

set_option maxRecDepth 100000 in
/-- C5: code generation is not byte-identical across runs.  With two exports
produced by two distinct tasks, both `["alpha", "beta"]` and
`["beta", "alpha"]` are possible outcomes of `list(set(final_tasks))`
(Python string hashing is randomized per process), and the two orders render
different `all` task texts. -/
theorem generated_all_task_depends_on_set_order :
    isSetListOf (finalTasksRaw twoExportNodes twoExportEdges) ["alpha", "beta"] ∧
      isSetListOf (finalTasksRaw twoExportNodes twoExportEdges) ["beta", "alpha"] ∧
      generate_all_task ["alpha", "beta"] ≠ generate_all_task ["beta", "alpha"] := by
  refine ⟨by decide, by decide, by decide⟩

/-- C6 counterexample: placeholder resolution is not idempotent for every
project name.  With the project name `XBWV000`, resolving the text
`BWV000` once yields `XBWV000`, and resolving that again yields
`XXBWV000`. -/
theorem resolve_not_idempotent_for_all_projects :
    resolveCommand "XBWV000" (resolveCommand "XBWV000" "BWV000") ≠
      resolveCommand "XBWV000" "BWV000" := by decide

/-- C7 counterexample: substitution happens during parsing, not lazily.  The
pipeline parsed from `I1[BWV000.ly]` with project `bwv1006` stores the
filename `bwv1006.ly`; no unresolved `BWV000` token survives anywhere in
the parsed input table. -/
theorem parsed_pipeline_stores_resolved_text :
    (dlookup "I1" (parseInputs "bwv1006" "I1[BWV000.ly]")).map (fun i => i.filename) =
        some "bwv1006.ly" ∧
      ∀ kv ∈ parseInputs "bwv1006" "I1[BWV000.ly]", ¬ strContains kv.2.filename "BWV000" := by
  refine ⟨by decide, by decide⟩

/-! ### Replacement is the identity when the pattern does not occur -/

lemma string_mk_toList (s : String) : String.mk s.toList = s := by
  cases s; rfl

lemma pyReplaceL_no_occurrence (pat rep : List Char) :
    ∀ fuel s, ¬ pat <:+: s → pyReplaceL pat rep fuel s = s := by
  intro fuel
  induction fuel with
  | zero => intro s _; cases s <;> rfl
  | succ f ih =>
    intro s h
    cases s with
    | nil => rfl
    | cons c t =>
      have hc : ¬ (pat ≠ [] ∧ pat.isPrefixOf (c :: t) = true) := by
        rintro ⟨-, hpre⟩
        exact h (List.isPrefixOf_iff_prefix.mp hpre).isInfix
      have ht : ¬ pat <:+: t := fun hin => h (List.infix_cons hin)
      simp only [pyReplaceL, hc, if_false, ih t ht]

lemma pyReplace_no_occurrence (s pat rep : String) (h : ¬ pat.toList <:+: s.toList) :
    pyReplace s pat rep = s := by
  unfold pyReplace
  rw [pyReplaceL_no_occurrence pat.toList rep.toList _ _ h, string_mk_toList]

/-- C6 amended: placeholder resolution is idempotent on every text whose
resolved form retains no placeholder token: when neither `BWV000` nor `PWD`
occurs in `resolveCommand p x`, a second resolution is a no-op. -/
theorem resolve_idempotent_of_no_surviving_token (p x : String)
    (h1 : ¬ strContains (resolveCommand p x) "BWV000")
    (h2 : ¬ strContains (resolveCommand p x) "PWD") :
    resolveCommand p (resolveCommand p x) = resolveCommand p x := by
  have k1 : pyReplace (resolveCommand p x) "BWV000" p = resolveCommand p x :=
    pyReplace_no_occurrence _ _ _ h1
  show pyReplace (pyReplace (resolveCommand p x) "BWV000" p) "PWD" "." = resolveCommand p x
  rw [k1]
  exact pyReplace_no_occurrence _ _ _ h2

/-- Witness for the amended C6 theorem at a concrete command and project. -/
theorem resolve_idempotent_witness :
    ¬ strContains (resolveCommand "bwv1006" "docker run BWV000 PWD") "BWV000" ∧
      ¬ strContains (resolveCommand "bwv1006" "docker run BWV000 PWD") "PWD" ∧
      resolveCommand "bwv1006" (resolveCommand "bwv1006" "docker run BWV000 PWD") =
        resolveCommand "bwv1006" "docker run BWV000 PWD" :=
  ⟨by decide, by decide,
    resolve_idempotent_of_no_surviving_token "bwv1006" "docker run BWV000 PWD"
      (by decide) (by decide)⟩

/-! ### Dict insertion lemmas and the last-declaration-wins property -/

lemma dlookup_dinsert_self {α : Type} (k : String) (v : α) (d : List (String × α)) :
    dlookup k (dinsert k v d) = some v := by
  induction d with
  | nil => simp [dinsert, dlookup]
  | cons kv d ih =>
    obtain ⟨a, b⟩ := kv
    by_cases h : a = k
    · simp [dinsert, dlookup, h]
    · simp [dinsert, dlookup, h, ih]

lemma dlookup_dinsert_ne {α : Type} (k k' : String) (v : α) (d : List (String × α))
    (h : k' ≠ k) : dlookup k' (dinsert k v d) = dlookup k' d := by
  have hk : ¬ (k = k') := fun hh => h hh.symm
  induction d with
  | nil => simp [dinsert, dlookup, hk]
  | cons kv d ih =>
    obtain ⟨a, b⟩ := kv
    by_cases ha : a = k
    · have h1 : dinsert k v ((a, b) :: d) = (k, v) :: d := by simp [dinsert, ha]
      have ha2 : ¬ (a = k') := by rw [ha]; exact hk
      rw [h1]
      simp [dlookup, hk, ha2, ha]
    · have h1 : dinsert k v ((a, b) :: d) = (a, b) :: dinsert k v d := by
        simp [dinsert, ha]
      rw [h1]
      by_cases ha' : a = k'
      · simp [dlookup, ha']
      · simp [dlookup, ha', ih]

lemma dlookup_foldl_dinsert {α : Type} (build : String × String → α) :
    ∀ (ms : List (String × String)) (d : List (String × α)) (k : String),
      dlookup k (ms.foldl (fun d m => dinsert m.1 (build m) d) d) =
        match (ms.filter (fun m => m.1 == k)).getLast? with
        | some m => some (build m)
        | none => dlookup k d := by
  intro ms
  induction ms using List.reverseRecOn with
  | nil => intro d k; rfl
  | append_singleton ms m ih =>
    intro d k
    rw [List.foldl_append, List.filter_append]
    by_cases hm : m.1 = k
    · have : List.filter (fun m => m.1 == k) [m] = [m] := by simp [hm]
      rw [this, List.getLast?_concat]
      simp only [List.foldl_cons, List.foldl_nil]
      rw [← hm, dlookup_dinsert_self]
    · have : List.filter (fun m => m.1 == k) [m] = [] := by simp [hm]
      rw [this, List.append_nil]
      simp only [List.foldl_cons, List.foldl_nil]
      rw [dlookup_dinsert_ne _ _ _ _ (fun hh => hm hh.symm)]
      exact ih d k

/-- C10: when the same node id is declared more than once, parsing keeps
exactly the declaration appearing last in the text: the parsed entry for an
id is the node built from the last regex match carrying that id, both for
Input and for Task tables. -/
theorem duplicate_ids_keep_last_declaration (p content nid : String) :
    dlookup nid (parseInputs p content) =
        (((nodeMatches 'I' content).filter (fun m => m.1 == nid)).getLast?).map
          (buildInput p) ∧
      dlookup nid (parseTasks content) =
        (((nodeMatches 'T' content).filter (fun m => m.1 == nid)).getLast?).map buildTask := by
  constructor
  · rw [parseInputs, dlookup_foldl_dinsert (buildInput p)]
    cases ((nodeMatches 'I' content).filter (fun m => m.1 == nid)).getLast? <;> rfl
  · rw [parseTasks, dlookup_foldl_dinsert buildTask]
    cases ((nodeMatches 'T' content).filter (fun m => m.1 == nid)).getLast? <;> rfl

/-! ### Eager substitution at parse time -/

lemma mapVals_dinsert {α β : Type} (f : α → β) (k : String) (v : α)
    (d : List (String × α)) :
    mapVals f (dinsert k v d) = dinsert k (f v) (mapVals f d) := by
  induction d with
  | nil => rfl
  | cons kv d ih =>
    obtain ⟨a, b⟩ := kv
    by_cases h : a = k
    · simp [dinsert, mapVals, h]
    · simp only [dinsert, mapVals, h, if_false, List.map_cons, ite_false]
      simpa [mapVals] using ih

/-- C7 amended: placeholder substitution is applied eagerly during parsing.
Parsing with project `p` stores, for every input node, exactly the raw
parsed filename with `BWV000` already replaced by `p`: the parsed table is
the raw table with the substitution mapped over the stored filenames, so
the pipeline is specific to the project name supplied at parse time. -/
theorem substitution_applied_during_parsing (p content : String) :
    parseInputs p content =
      mapVals (fun i => { i with filename := pyReplace i.filename "BWV000" p })
        (parseInputsRaw content) := by
  have key : ∀ (ms : List (String × String)) (d : List (String × Input)),
      ms.foldl (fun d m => dinsert m.1 (buildInput p m) d)
          (mapVals (fun i => { i with filename := pyReplace i.filename "BWV000" p }) d) =
        mapVals (fun i => { i with filename := pyReplace i.filename "BWV000" p })
          (ms.foldl (fun d m => dinsert m.1 (buildInputRaw m) d) d) := by
    intro ms
    induction ms with
    | nil => intro d; rfl
    | cons m ms ih =>
      intro d
      simp only [List.foldl_cons]
      have h2 : dinsert m.1 (buildInput p m)
          (mapVals (fun i => { i with filename := pyReplace i.filename "BWV000" p }) d) =
          mapVals (fun i => { i with filename := pyReplace i.filename "BWV000" p })
            (dinsert m.1 (buildInputRaw m) d) :=
        (mapVals_dinsert (fun i => { i with filename := pyReplace i.filename "BWV000" p })
          m.1 (buildInputRaw m) d).symm
      rw [h2]
      exact ih (dinsert m.1 (buildInputRaw m) d)
  simpa [mapVals] using key (nodeMatches 'I' content) []

/-! ### Dependency characterization of the analyzer -/

lemma mem_optContent {c : String} {o : Option UNode} :
    c ∈ optContent o ↔ ∃ n, o = some n ∧ n.content = c := by
  cases o with
  | none => simp [optContent]
  | some n => simp [optContent, eq_comm]

lemma mem_ite_nil {P : Prop} [Decidable P] {l : List String} {a : String} :
    a ∈ (if P then l else []) ↔ P ∧ a ∈ l := by
  by_cases h : P <;> simp [h]

lemma mem_traceDirect {c tid : String} {edges : List (String × String)}
    {nodes : List UNode} :
    c ∈ traceDirect tid edges nodes ↔
      ∃ t' n, get_node_by_id nodes t' = some n ∧ n.content = c ∧ DirectDep edges tid t' := by
  unfold traceDirect
  rw [List.mem_flatMap]
  constructor
  · rintro ⟨e, he, hc⟩
    rw [mem_ite_nil] at hc
    obtain ⟨⟨h2, hT⟩, hopt⟩ := hc
    obtain ⟨n, hn, hcc⟩ := mem_optContent.mp hopt
    have hme : (e.1, tid) ∈ edges := by
      have : (e.1, tid) = e := by rw [← h2]
      rw [this]; exact he
    exact ⟨e.1, n, hn, hcc, hme, hT⟩
  · rintro ⟨t', n, hn, hcc, hmem, hT⟩
    refine ⟨(t', tid), hmem, ?_⟩
    rw [mem_ite_nil]
    exact ⟨⟨rfl, hT⟩, mem_optContent.mpr ⟨n, hn, hcc⟩⟩

lemma mem_traceViaOutputs {c tid : String} {edges : List (String × String)}
    {nodes : List UNode} :
    c ∈ traceViaOutputs tid edges nodes ↔
      ∃ t' n, get_node_by_id nodes t' = some n ∧ n.content = c ∧
        OutputPathDep edges tid t' := by
  unfold traceViaOutputs
  rw [List.mem_flatMap]
  constructor
  · rintro ⟨e, he, hc⟩
    rw [mem_ite_nil] at hc
    obtain ⟨⟨h2, hO⟩, hc⟩ := hc
    rw [List.mem_flatMap] at hc
    obtain ⟨e2, he2, hc⟩ := hc
    rw [mem_ite_nil] at hc
    obtain ⟨⟨h22, hR⟩, hc⟩ := hc
    rw [List.mem_flatMap] at hc
    obtain ⟨e3, he3, hc⟩ := hc
    rw [mem_ite_nil] at hc
    obtain ⟨⟨h32, hT⟩, hopt⟩ := hc
    obtain ⟨n, hn, hcc⟩ := mem_optContent.mp hopt
    refine ⟨e3.1, n, hn, hcc, e2.1, e.1, ?_, hO, ?_, hR, ?_, hT⟩
    · have : (e.1, tid) = e := by rw [← h2]
      rw [this]; exact he
    · have : (e2.1, e.1) = e2 := by rw [← h22]
      rw [this]; exact he2
    · have : (e3.1, e2.1) = e3 := by rw [← h32]
      rw [this]; exact he3
  · rintro ⟨t', n, hn, hcc, r, o, ho, hO, hr, hR, ht, hT⟩
    refine ⟨(o, tid), ho, ?_⟩
    rw [mem_ite_nil]
    refine ⟨⟨rfl, hO⟩, ?_⟩
    rw [List.mem_flatMap]
    refine ⟨(r, o), hr, ?_⟩
    rw [mem_ite_nil]
    refine ⟨⟨rfl, hR⟩, ?_⟩
    rw [List.mem_flatMap]
    refine ⟨(t', r), ht, ?_⟩
    rw [mem_ite_nil]
    exact ⟨⟨rfl, hT⟩, mem_optContent.mpr ⟨n, hn, hcc⟩⟩

/-- C3: the analyzer dependency set of task `t` contains exactly the
contents of task nodes `t'` with either a direct edge `(t', t)` or a path
`t' -> r' -> o -> t` through a runnable of `t'` and an output consumed by
`t`, and it contains no duplicates. -/
theorem trace_dependencies_characterization (tid : String)
    (edges : List (String × String)) (nodes : List UNode) (c : String) :
    (c ∈ trace_task_dependencies tid edges nodes ↔
      ∃ t' n, get_node_by_id nodes t' = some n ∧ n.content = c ∧
        (DirectDep edges tid t' ∨ OutputPathDep edges tid t')) ∧
      (trace_task_dependencies tid edges nodes).Nodup := by
  refine ⟨?_, List.nodup_dedup _⟩
  unfold trace_task_dependencies
  rw [List.mem_dedup, List.mem_append, mem_traceDirect, mem_traceViaOutputs]
  constructor
  · rintro (⟨t', n, hn, hcc, hd⟩ | ⟨t', n, hn, hcc, hp⟩)
    · exact ⟨t', n, hn, hcc, Or.inl hd⟩
    · exact ⟨t', n, hn, hcc, Or.inr hp⟩
  · rintro ⟨t', n, hn, hcc, hd | hp⟩
    · exact Or.inl ⟨t', n, hn, hcc, hd⟩
    · exact Or.inr ⟨t', n, hn, hcc, hp⟩

/-! ### Sorting lemmas for the scheduler queue -/

lemma insertStr_perm (a : String) (l : List String) : (insertStr a l).Perm (a :: l) := by
  induction l with
  | nil => exact List.Perm.refl _
  | cons b l ih =>
    unfold insertStr
    by_cases h : a.toList ≤ b.toList
    · rw [if_pos h]
    · rw [if_neg h]
      exact (ih.cons b).trans (List.Perm.swap a b l)

lemma sortQueue_perm (q : List String) : (sortQueue q).Perm q := by
  induction q with
  | nil => exact List.Perm.refl _
  | cons a l ih => exact (insertStr_perm a (sortQueue l)).trans (ih.cons a)

lemma sorted_insertStr (a : String) (l : List String)
    (h : List.Pairwise strLe l) : List.Pairwise strLe (insertStr a l) := by
  induction l with
  | nil => simp [insertStr, List.pairwise_cons]
  | cons b l ih =>
    rw [List.pairwise_cons] at h
    obtain ⟨hb, hl⟩ := h
    unfold insertStr
    by_cases hab : a.toList ≤ b.toList
    · rw [if_pos hab]
      rw [List.pairwise_cons]
      refine ⟨?_, List.pairwise_cons.mpr ⟨hb, hl⟩⟩
      intro x hx
      rcases List.mem_cons.mp hx with hx | hx
      · rw [hx]; exact hab
      · exact le_trans hab (hb x hx)
    · rw [if_neg hab]
      rw [List.pairwise_cons]
      refine ⟨?_, ih hl⟩
      intro x hx
      have hx' := (insertStr_perm a l).mem_iff.mp hx
      rcases List.mem_cons.mp hx' with hx' | hx'
      · rw [hx']
        exact le_of_not_le hab
      · exact hb x hx'

lemma sorted_sortQueue (q : List String) : List.Pairwise strLe (sortQueue q) := by
  induction q with
  | nil => simp [sortQueue]
  | cons a l ih => exact sorted_insertStr a (sortQueue l) ih

lemma sortQueue_eq_of_perm {q1 q2 : List String} (h : q1.Perm q2) :
    sortQueue q1 = sortQueue q2 :=
  List.eq_of_perm_of_sorted ((sortQueue_perm q1).trans (h.trans (sortQueue_perm q2).symm))
    (sorted_sortQueue q1) (sorted_sortQueue q2)

lemma sortQueue_head_min (q : List String) (c : String) (rest : List String)
    (h : sortQueue q = c :: rest) : ∀ x ∈ q, strLe c x := by
  intro x hx
  have hx' : x ∈ c :: rest := by
    rw [← h]
    exact (sortQueue_perm q).symm.mem_iff.mp hx
  rcases List.mem_cons.mp hx' with hx' | hx'
  · rw [hx']
    exact le_refl _
  · have hs := sorted_sortQueue q
    rw [h, List.pairwise_cons] at hs
    exact hs.1 x hx'

/-! ### The Kahn loop schedules every task at most once -/

lemma kahnStep_invariant (deps : String → List String) (current : String) :
    ∀ (o : List String) (deg : String → Int) (q res : List String),
      (res ++ q).Nodup →
      (∀ t ∈ res ++ q, deg t ≤ 0) →
      ((res ++ (kahnStep deps o current (deg, q)).2).Nodup ∧
        ∀ t ∈ res ++ (kahnStep deps o current (deg, q)).2,
          (kahnStep deps o current (deg, q)).1 t ≤ 0) := by
  intro o
  induction o with
  | nil => intro deg q res h1 h2; exact ⟨h1, h2⟩
  | cons a o ih =>
    intro deg q res h1 h2
    have hstep : kahnStep deps (a :: o) current (deg, q) =
        kahnStep deps o current
          (if current ∈ deps a then
            ((fun x => if x = a then deg a - 1 else deg x),
              if deg a - 1 = 0 then q ++ [a] else q)
          else (deg, q)) := rfl
    rw [hstep]
    by_cases hc : current ∈ deps a
    · simp only [if_pos hc]
      by_cases hd : deg a - 1 = 0
      · have ha : deg a = 1 := by omega
        have hfresh : a ∉ res ++ q := fun hmem => by
          have := h2 a hmem
          omega
        rw [if_pos hd]
        apply ih
        · rw [← List.append_assoc]
          rw [List.nodup_append]
          refine ⟨h1, List.nodup_singleton a, ?_⟩
          intro x hx hx'
          rw [List.mem_singleton] at hx'
          rw [hx'] at hx
          exact hfresh hx
        · intro t ht
          rw [← List.append_assoc] at ht
          rcases List.mem_append.mp ht with ht | ht
          · by_cases hta : t = a
            · rw [hta, if_pos rfl]
              omega
            · rw [if_neg hta]
              exact h2 t ht
          · rw [List.mem_singleton] at ht
            rw [ht, if_pos rfl]
            omega
      · rw [if_neg hd]
        apply ih
        · exact h1
        · intro t ht
          by_cases hta : t = a
          · rw [hta, if_pos rfl]
            have := h2 a (hta ▸ ht)
            omega
          · rw [if_neg hta]
            exact h2 t ht
    · simp only [if_neg hc]
      exact ih deg q res h1 h2

lemma kahnLoop_nodup (deps : String → List String) (o : List String) :
    ∀ (fuel : Nat) (q : List String) (deg : String → Int) (res : List String),
      (res ++ q).Nodup →
      (∀ t ∈ res ++ q, deg t ≤ 0) →
      (kahnLoop deps o fuel q deg res).Nodup := by
  intro fuel
  induction fuel with
  | zero =>
    intro q deg res h1 _
    exact h1.of_append_left
  | succ f ih =>
    intro q deg res h1 h2
    show (match sortQueue q with
      | [] => res
      | current :: rest =>
        let st := kahnStep deps o current (deg, rest)
        kahnLoop deps o f st.2 st.1 (res ++ [current])).Nodup
    cases hq : sortQueue q with
    | nil => exact h1.of_append_left
    | cons current rest =>
      have hperm : (res ++ (current :: rest)).Perm (res ++ q) :=
        List.Perm.append_left res (hq ▸ sortQueue_perm q)
      have h1' : ((res ++ [current]) ++ rest).Nodup := by
        rw [List.append_assoc]
        exact hperm.nodup_iff.mpr h1
      have h2' : ∀ t ∈ (res ++ [current]) ++ rest, deg t ≤ 0 := by
        intro t ht
        rw [List.append_assoc] at ht
        exact h2 t (hperm.mem_iff.mp ht)
      obtain ⟨hn, hdeg⟩ := kahnStep_invariant deps current o deg rest (res ++ [current]) h1' h2'
      exact ih _ _ _ hn hdeg

/-- C9: the scheduler output contains each task id at most once, even though
the derived dependency lists may contain duplicate entries, and every
returned name is the name of a Task node present in the task table. -/
theorem scheduler_output_nodup_and_from_task_table (pl : Pipeline) :
    (topoIds pl).Nodup ∧
      ∀ n ∈ topological_sort_tasks pl,
        ∃ tid t, dlookup tid pl.tasks = some t ∧ t.name = n := by
  constructor
  · show (topoIdsWith pl (taskKeys pl)).Nodup
    simp only [topoIdsWith]
    apply kahnLoop_nodup
    · rw [List.nil_append]
      exact (List.nodup_dedup _).filter _
    · intro t ht
      rw [List.nil_append, List.mem_filter] at ht
      have h0 : ((depsOf pl t).length : Int) = 0 := by
        have := ht.2
        rwa [beq_iff_eq] at this
      rw [h0]
  · intro n hn
    unfold topological_sort_tasks idsToNames at hn
    rw [List.mem_filterMap] at hn
    obtain ⟨tid, -, hm⟩ := hn
    rw [Option.map_eq_some'] at hm
    obtain ⟨t, ht, hname⟩ := hm
    exact ⟨tid, t, ht, hname⟩

/-! ### Determinism of the scheduler over the set iteration order -/

lemma kahnStep_char (deps : String → List String) (current : String) :
    ∀ (o : List String), o.Nodup → ∀ (deg : String → Int) (q : List String),
      (kahnStep deps o current (deg, q)).1 =
        (fun x => if x ∈ o ∧ current ∈ deps x then deg x - 1 else deg x) ∧
      (kahnStep deps o current (deg, q)).2 =
        q ++ o.filter (fun t => decide (current ∈ deps t) && (deg t - 1 == 0)) := by
  intro o
  induction o with
  | nil =>
    intro _ deg q
    constructor
    · funext x
      simp [kahnStep]
    · simp [kahnStep]
  | cons a o ih =>
    intro hno deg q
    rw [List.nodup_cons] at hno
    obtain ⟨ha, ho⟩ := hno
    have hstep : kahnStep deps (a :: o) current (deg, q) =
        kahnStep deps o current
          (if current ∈ deps a then
            ((fun x => if x = a then deg a - 1 else deg x),
              if deg a - 1 = 0 then q ++ [a] else q)
          else (deg, q)) := rfl
    by_cases hc : current ∈ deps a
    · rw [hstep, if_pos hc]
      obtain ⟨ih1, ih2⟩ := ih ho
        (fun x => if x = a then deg a - 1 else deg x)
        (if deg a - 1 = 0 then q ++ [a] else q)
      constructor
      · rw [ih1]
        funext x
        by_cases hxa : x = a
        · subst hxa
          simp [ha, hc, List.mem_cons]
        · simp [hxa, List.mem_cons]
      · rw [ih2]
        have hfc : o.filter
              (fun t => decide (current ∈ deps t) &&
                ((if t = a then deg a - 1 else deg t) - 1 == 0)) =
            o.filter (fun t => decide (current ∈ deps t) && (deg t - 1 == 0)) := by
          apply List.filter_congr
          intro t hto
          have hta : t ≠ a := fun he => ha (he ▸ hto)
          rw [if_neg hta]
        rw [hfc, List.filter_cons]
        by_cases hd : deg a - 1 = 0
        · have hpa : (decide (current ∈ deps a) && (deg a - 1 == 0)) = true := by
            rw [decide_eq_true hc, hd]
            rfl
          rw [if_pos hd, if_pos hpa, List.append_assoc, List.singleton_append]
        · have hpa : (decide (current ∈ deps a) && (deg a - 1 == 0)) = false := by
            rw [decide_eq_true hc]
            simpa using hd
          rw [if_neg hd]
          simp [hpa]
    · rw [hstep, if_neg hc]
      obtain ⟨ih1, ih2⟩ := ih ho deg q
      constructor
      · rw [ih1]
        funext x
        by_cases hxa : x = a
        · subst hxa
          simp [hc]
        · simp [hxa, List.mem_cons]
      · rw [ih2, List.filter_cons]
        have hpa : (decide (current ∈ deps a) && (deg a - 1 == 0)) = false := by
          rw [decide_eq_false hc]
          rfl
        rw [hpa]
        rfl

lemma kahnLoop_perm_invariant (deps : String → List String) {o1 o2 : List String}
    (hp : o1.Perm o2) (hn : o1.Nodup) :
    ∀ (fuel : Nat) (q1 q2 : List String), q1.Perm q2 →
      ∀ (deg : String → Int) (res : List String),
        kahnLoop deps o1 fuel q1 deg res = kahnLoop deps o2 fuel q2 deg res := by
  have hn2 : o2.Nodup := hp.nodup_iff.mp hn
  intro fuel
  induction fuel with
  | zero => intros; rfl
  | succ f ih =>
    intro q1 q2 hq deg res
    have hs : sortQueue q1 = sortQueue q2 := sortQueue_eq_of_perm hq
    simp only [kahnLoop]
    rw [hs]
    cases hsq : sortQueue q2 with
    | nil => rfl
    | cons current rest =>
      show kahnLoop deps o1 f (kahnStep deps o1 current (deg, rest)).2
          (kahnStep deps o1 current (deg, rest)).1 (res ++ [current]) =
        kahnLoop deps o2 f (kahnStep deps o2 current (deg, rest)).2
          (kahnStep deps o2 current (deg, rest)).1 (res ++ [current])
      obtain ⟨c11, c12⟩ := kahnStep_char deps current o1 hn deg rest
      obtain ⟨c21, c22⟩ := kahnStep_char deps current o2 hn2 deg rest
      have hdeg : (kahnStep deps o1 current (deg, rest)).1 =
          (kahnStep deps o2 current (deg, rest)).1 := by
        rw [c11, c21]
        funext x
        by_cases h1 : x ∈ o1 ∧ current ∈ deps x
        · rw [if_pos h1, if_pos ⟨hp.mem_iff.mp h1.1, h1.2⟩]
        · rw [if_neg h1, if_neg (fun hh => h1 ⟨hp.mem_iff.mpr hh.1, hh.2⟩)]
      have hqp : (kahnStep deps o1 current (deg, rest)).2.Perm
          (kahnStep deps o2 current (deg, rest)).2 := by
        rw [c12, c22]
        exact List.Perm.append_left rest (hp.filter _)
      rw [hdeg]
      exact ih _ _ hqp _ _

/-- C4: the scheduler is deterministic.  Its output does not depend on the
iteration order of the `all_tasks` set (any two enumerations of the task
key set yield identical orderings), and at every drain step the task popped
from the sorted queue is the code point lexicographically smallest
currently eligible task. -/
theorem scheduler_deterministic_lexicographic (pl : Pipeline) (o1 o2 : List String)
    (hp : o1.Perm o2) (hn : o1.Nodup) :
    topological_sort_tasksWith pl o1 = topological_sort_tasksWith pl o2 ∧
      ∀ q c rest, sortQueue q = c :: rest → ∀ x ∈ q, strLe c x := by
  refine ⟨?_, fun q c rest h => sortQueue_head_min q c rest h⟩
  unfold topological_sort_tasksWith topoIdsWith idsToNames
  congr 1
  rw [hp.length_eq]
  exact kahnLoop_perm_invariant (fun t => depsOf pl t) hp hn (o2.length + 1) _ _
    (hp.filter _) _ _

/-- Witness for the C4 determinism theorem at two concrete enumerations of
the task set of `dupDepPipeline`. -/
theorem scheduler_deterministic_lexicographic_witness :
    topological_sort_tasksWith dupDepPipeline ["T1", "T2"] =
      topological_sort_tasksWith dupDepPipeline ["T2", "T1"] :=
  (scheduler_deterministic_lexicographic dupDepPipeline ["T1", "T2"] ["T2", "T1"]
    (List.Perm.swap "T2" "T1" []) (by decide)).1

end BwvZeug
